import Mathlib

/-!
Verification of the nestif repair tool (`main.py`).

Strings are modelled as `List Char`.  The embedding models:
  * `parse_nestif_errors` and its anchored regex
    `^(?P<file>.+?):(?P<line>\d+):\d+\s+nestif\s+(?P<message>.+)$`
    (character classes are modelled over ASCII; `.` is any character other
    than a newline, `\s` is the six ASCII whitespace characters, `\d` the
    ASCII digits; `$` accepts the end of the string or a single trailing
    newline, exactly as Python's `re` does without `MULTILINE`);
  * `extract_nested_if_snippet` (brace-counting block extraction);
  * `replace_snippet_in_file` (Python `str.replace(old, new, 1)`);
  * `extract_code_and_reasoning_from_response` and the response handling of
    `call_llm_for_fix` (the HTTP transport is abstracted into an outcome
    value; an uncaught `KeyError` is modelled as `none`);
  * the guarded commit of the patched text in `main`'s per-diagnostic loop.

Line boundaries for `str.splitlines` are modelled as `'\n'` only (the
source is applied to Go files and linter output, where this is the only
boundary that occurs).
-/

/-- ASCII model of Python's `\s` character class. -/
def isPyWs (c : Char) : Bool :=
  (c == ' ') || (c == '\t') || (c == '\n') || (c == '\r') || (c == '\x0b') || (c == '\x0c')

/-- ASCII model of Python's `\d` character class. -/
def isDigitCh (c : Char) : Bool := ('0' ≤ c) && (c ≤ '9')

/-- Model of the regex `.` class (anything but a newline). -/
def notNl (c : Char) : Bool := c != '\n'

/-- Value of a decimal digit string, as computed by Python's `int`. -/
def natOfDigits (ds : List Char) : Nat :=
  ds.foldl (fun a c => 10 * a + (c.toNat - '0'.toNat)) 0

/-- Split at `'\n'`, keeping empty pieces (helper for `pySplitlines`). -/
def splitNl : List Char → List (List Char)
  | [] => [[]]
  | c :: rest =>
    if c = '\n' then [] :: splitNl rest
    else
      match splitNl rest with
      | [] => [[c]]
      | p :: ps => (c :: p) :: ps

/-- Model of Python `str.splitlines` (no trailing empty line). -/
def pySplitlines (s : List Char) : List (List Char) :=
  let ps := splitNl s
  if ps.getLast? = some [] then ps.dropLast else ps

/-- Model of Python `str.strip()`: remove leading and trailing whitespace. -/
def pyStrip (s : List Char) : List Char :=
  ((s.dropWhile isPyWs).reverse.dropWhile isPyWs).reverse

/-- `line.count("{")` from `extract_nested_if_snippet`. -/
def openCount (l : List Char) : Nat := (l.filter (fun c => c == '\x7b')).length

/-- `line.count("}")` from `extract_nested_if_snippet`. -/
def closeCount (l : List Char) : Nat := (l.filter (fun c => c == '\x7d')).length

/-- Per-line change `open_count - close_count` applied to `brace_count`. -/
def braceDelta (l : List Char) : Int := (openCount l : Int) - (closeCount l : Int)

/-- The scanning loop of `extract_nested_if_snippet`: accumulate lines,
track `brace_count` and `found_open_brace`, and stop (including the
current line) once an open brace has been seen and the count is `≤ 0`. -/
def extractLoop : List (List Char) → Int → Bool → List (List Char)
  | [], _, _ => []
  | l :: rest, depth, found =>
    let depth' := depth + braceDelta l
    let found' := found || decide (0 < openCount l)
    if found' && decide (depth' ≤ 0) then [l]
    else l :: extractLoop rest depth' found'

/-- `extract_nested_if_snippet(file_contents, start_line)` from the source:
split into lines, guard the 1-based start line, scan with brace counting,
and join the collected lines with `"\n"`. -/
def extract_nested_if_snippet (file_contents : List Char) (start_line : Int) : List Char :=
  let lines := pySplitlines file_contents
  let start_index := start_line - 1
  if start_index < 0 ∨ (lines.length : Int) ≤ start_index then []
  else List.intercalate ['\n'] (extractLoop (lines.drop start_index.toNat) 0 false)

/-- Python `s.replace(old, new, 1)`: replace the first occurrence of `old`
(at the earliest index where `old` is a prefix of the remaining text; an
empty `old` matches at index 0). -/
def pyReplaceFirst (old new : List Char) : List Char → List Char
  | [] => if old.isEmpty then new else []
  | c :: rest =>
    if old.isPrefixOf (c :: rest) then new ++ (c :: rest).drop old.length
    else c :: pyReplaceFirst old new rest

/-- `replace_snippet_in_file(original_code, snippet, new_snippet)`:
`original_code.replace(snippet, new_snippet, 1)`. -/
def replace_snippet_in_file (original_code snippet new_snippet : List Char) : List Char :=
  pyReplaceFirst snippet new_snippet original_code

/-- Index of the first occurrence of `pat` in a string (`re`-style leftmost
search for a literal), or `none`. -/
def firstOccIdx (pat : List Char) : List Char → Option Nat
  | [] => if pat.isPrefixOf [] then some 0 else none
  | c :: rest =>
    if pat.isPrefixOf (c :: rest) then some 0
    else (firstOccIdx pat rest).map (· + 1)

/-- The opening delimiter literal of the fenced-code regex. -/
def fenceGo : List Char := "```go".toList

/-- The closing delimiter literal of the fenced-code regex. -/
def fence : List Char := "```".toList

/-- One leftmost match of `` ```go\s*(.*?)\s*``` `` (DOTALL): the position
of the first `` ```go `` and the raw text up to the earliest following
`` ``` ``.  With a greedy leading `\s*`, a lazy `(.*?)` and a greedy
trailing `\s*`, the matched group differs from this raw text only by
edge whitespace, which `extract_code_and_reasoning_from_response`
strips anyway. -/
def fencedGoMatch (content : List Char) : Option (Nat × List Char) :=
  match firstOccIdx fenceGo content with
  | none => none
  | some i =>
    let after := content.drop (i + 5)
    match firstOccIdx fence after with
    | none => none
    | some j => some (i, after.take j)

/-- Remove every fenced-code match, left to right (`code_pattern.sub('', ·)`).
Each match spans at least 8 characters, so `fuel` bounds the recursion;
it is called with the content length, which always suffices. -/
def removeGoFencesAux : Nat → List Char → List Char
  | 0, content => content
  | fuel + 1, content =>
    match fencedGoMatch content with
    | none => content
    | some (i, inner) =>
      content.take i ++ removeGoFencesAux fuel (content.drop (i + 5 + inner.length + 3))

/-- `code_pattern.sub('', llm_content)` from the source. -/
def removeGoFences (content : List Char) : List Char :=
  removeGoFencesAux content.length content

/-- `extract_code_and_reasoning_from_response(llm_content)`: the stripped
fenced region (or `""` when there is none), and the content with all
fenced regions removed, stripped, as the reasoning text. -/
def extract_code_and_reasoning_from_response (llm_content : List Char) :
    List Char × List Char :=
  let code_part :=
    match fencedGoMatch llm_content with
    | some (_, inner) => pyStrip inner
    | none => []
  let reasoning_part := pyStrip (removeGoFences llm_content)
  (code_part, reasoning_part)

/-- One choice of the rewrite-service response; `message_content` is
`choice["message"]["content"]` when those keys exist. -/
structure LLMChoice where
  message_content : Option (List Char)
deriving DecidableEq

/-- The decoded JSON body of a rewrite-service response; `choices = none`
models a missing `"choices"` key (and `some []` an empty list, both falsy
for `response_json.get("choices")`). -/
structure LLMResponse where
  choices : Option (List LLMChoice)
deriving DecidableEq

/-- Outcome of the HTTP exchange in `call_llm_for_fix`: either a
`requests.RequestException` (transport failure, timeout, or a non-success
status raised by `raise_for_status`), or a decoded response body. -/
inductive LLMOutcome where
  | requestError : LLMOutcome
  | ok : LLMResponse → LLMOutcome
deriving DecidableEq

/-- Result of `call_llm_for_fix`: the returned pair plus whether an
`[ERROR]` line was printed. -/
structure LLMFixResult where
  fixed : List Char
  reasoning : List Char
  errorLogged : Bool
deriving DecidableEq

/-- The response handling of `call_llm_for_fix(snippet)`.  `none` models
the uncaught `KeyError` raised by
`response_json["choices"][0]["message"]["content"]` when the first choice
has no message content (that line is outside the `try` block). -/
def call_llm_for_fix (snippet : List Char) : LLMOutcome → Option LLMFixResult
  | .requestError => some ⟨snippet, [], true⟩
  | .ok resp =>
    match resp.choices with
    | none => some ⟨snippet, [], true⟩
    | some [] => some ⟨snippet, [], true⟩
    | some (c :: _) =>
      match c.message_content with
      | none => none
      | some llm_content =>
        let er := extract_code_and_reasoning_from_response llm_content
        let fixed := if (pyStrip er.1).isEmpty then snippet else er.1
        some ⟨fixed, er.2, false⟩

/-- The literal `nestif` of the diagnostic regex. -/
def nestifStr : List Char := "nestif".toList

/-- `(.+)$` at the end of the line: a greedy run of non-newline characters,
which must be nonempty, followed by the end of the string or a single
trailing newline (Python's `$`). -/
def msgMatch (s : List Char) : Option (List Char) :=
  let p := s.takeWhile notNl
  let q := s.dropWhile notNl
  if p = [] then none
  else if q = [] ∨ q = ['\n'] then some p else none

/-- Backtracking for `\s+(.+)$`: the greedy `\s+` first takes the whole
whitespace run (given reversed, so it is peeled from its end), and gives
characters back one at a time until `(.+)$` matches; `\s+` must keep at
least one character. -/
def wsBacktrack : List Char → List Char → Option (List Char)
  | [], _ => none
  | c :: wRev, t =>
    match msgMatch t with
    | some m => some m
    | none => wsBacktrack wRev (c :: t)

/-- Match `\s+(.+)$` against `r`, returning the message group. -/
def tailMatch (r : List Char) : Option (List Char) :=
  wsBacktrack ((r.takeWhile isPyWs).reverse) (r.dropWhile isPyWs)

/-- Match `:(\d+):\d+\s+nestif\s+(.+)$` against the part of the line after
the file group, returning `int(line_group)` and the message group.  The
greedy `\d+` and `\s+` runs need no backtracking here because each is
followed by a literal that cannot begin the run. -/
def restMatch (r : List Char) : Option (Nat × List Char) :=
  match r with
  | ':' :: r1 =>
    let d1 := r1.takeWhile isDigitCh
    let r2 := r1.dropWhile isDigitCh
    if d1 = [] then none
    else
      match r2 with
      | ':' :: r3 =>
        let d2 := r3.takeWhile isDigitCh
        let r4 := r3.dropWhile isDigitCh
        if d2 = [] then none
        else
          let w1 := r4.takeWhile isPyWs
          let r5 := r4.dropWhile isPyWs
          if w1 = [] then none
          else if nestifStr.isPrefixOf r5 then
            (tailMatch (r5.drop 6)).map (fun m => (natOfDigits d1, m))
          else none
      | _ => none
  | _ => none

/-- The lazy file group `^(?P<file>.+?)` of the diagnostic regex: try file
candidates of increasing length (each character must not be a newline),
and at each candidate match the rest of the pattern. -/
def scanFile : List Char → List Char → Option (List Char × Nat × List Char)
  | _, [] => none
  | fAcc, c :: rest =>
    if c = '\n' then none
    else
      match restMatch rest with
      | some (n, m) => some (fAcc ++ [c], n, m)
      | none => scanFile (fAcc ++ [c]) rest

/-- `nestif_regex.match(line)` projected to the three captured groups
(with the line group already converted by `int`). -/
def matchNestif (line : List Char) : Option (List Char × Nat × List Char) :=
  scanFile [] line

/-- `parse_nestif_errors(lint_output_lines)`: one `(file, line, message)`
triple per matching line, in order. -/
def parse_nestif_errors (lint_output_lines : List (List Char)) :
    List (List Char × Nat × List Char) :=
  lint_output_lines.filterMap matchNestif

/-- The skip test of `main`'s per-diagnostic loop:
`if not snippet.strip(): continue`. -/
def diagnosticSkipped (working_copy : List Char) (line_num : Int) : Bool :=
  (pyStrip (extract_nested_if_snippet working_copy line_num)).isEmpty

/-- The guarded commit of `main`'s per-diagnostic loop:
`updated = replace_snippet_in_file(...)`, assigned to the working copy
only when it differs from it or the rewrite equals the snippet. -/
def commit_step (new_file_code snippet fixed_snippet : List Char) : List Char :=
  let updated := replace_snippet_in_file new_file_code snippet fixed_snippet
  if updated ≠ new_file_code ∨ fixed_snippet = snippet then updated else new_file_code

/-- Occurrence of `old` at index `i` of `s` (specification vocabulary). -/
def occursAt (s old : List Char) (i : Nat) : Prop :=
  ∃ t, old ++ t = s.drop i

/-- Sum of the per-line brace deltas (specification vocabulary). -/
def depthSum (ls : List (List Char)) : Int := (ls.map braceDelta).sum

/-- Whether some line of `ls` contains an open brace (specification
vocabulary, mirroring `found_open_brace`). -/
def openedIn (ls : List (List Char)) : Bool :=
  ls.any (fun l => decide (0 < openCount l))

/-- The lines scanned by `extract_nested_if_snippet` for a diagnostic at
`start_line` (specification vocabulary). -/
def tailLines (working_copy : List Char) (start_line : Int) : List (List Char) :=
  (pySplitlines working_copy).drop (start_line - 1).toNat

/-- `true` when the extraction scan never triggers its stop condition from
the given state: no scanned line ever sees `found_open_brace` together
with `brace_count ≤ 0` (specification vocabulary for unmatched
delimiters). -/
def neverStops : List (List Char) → Int → Bool → Bool
  | [], _, _ => true
  | l :: rest, depth, found =>
    let depth' := depth + braceDelta l
    let found' := found || decide (0 < openCount l)
    (!(found' && decide (depth' ≤ 0))) && neverStops rest depth' found'

/-- A parse of one linter line under the spec grammar
`<file>:<line>:<col> <ruleID> <message>` with rule `nestif`: the groups
are exact substrings, the file and message are nonempty and free of
newlines, the line/column groups are nonempty digit strings, the
separators are nonempty whitespace runs, and `n` is the decimal value of
the line group (specification vocabulary). -/
def NestifLine (line f : List Char) (n : Nat) (m : List Char) : Prop :=
  ∃ d1 d2 w1 w2,
    line = f ++ ':' :: (d1 ++ ':' :: (d2 ++ (w1 ++ (nestifStr ++ (w2 ++ m))))) ∧
    f ≠ [] ∧ (∀ c ∈ f, c ≠ '\n') ∧
    d1 ≠ [] ∧ (∀ c ∈ d1, isDigitCh c = true) ∧
    d2 ≠ [] ∧ (∀ c ∈ d2, isDigitCh c = true) ∧
    w1 ≠ [] ∧ (∀ c ∈ w1, isPyWs c = true) ∧
    w2 ≠ [] ∧ (∀ c ∈ w2, isPyWs c = true) ∧
    m ≠ [] ∧ (∀ c ∈ m, c ≠ '\n') ∧
    n = natOfDigits d1

/-! ## Helper lemmas -/

theorem isPrefixOf_iff_exists : ∀ (a b : List Char), a.isPrefixOf b = true ↔ ∃ t, a ++ t = b
  | [], b => by simp [List.isPrefixOf]
  | x :: xs, [] => by simp [List.isPrefixOf]
  | x :: xs, y :: ys => by
    simp [List.isPrefixOf, Bool.and_eq_true, beq_iff_eq, isPrefixOf_iff_exists xs ys,
      List.cons_append, List.cons.injEq, exists_and_left]

theorem extractLoop_all (ls : List (List Char)) :
    ∀ d f, neverStops ls d f = true → extractLoop ls d f = ls := by
  induction ls with
  | nil => intro d f _; rfl
  | cons l rest ih =>
    intro d f h
    simp only [neverStops, Bool.and_eq_true, Bool.not_eq_true'] at h
    simp only [extractLoop, h.1, Bool.false_eq_true, if_false]
    exact congrArg (l :: ·) (ih _ _ h.2)

theorem extract_in_range (w : List Char) (start_line : Int) (h1 : 1 ≤ start_line)
    (h2 : start_line - 1 < ((pySplitlines w).length : Int)) :
    extract_nested_if_snippet w start_line
      = List.intercalate ['\n'] (extractLoop (tailLines w start_line) 0 false) := by
  simp only [extract_nested_if_snippet, tailLines]
  rw [if_neg]
  push_neg
  omega

/-! ## C9: patch application is idempotent under no-op -/

/-- C9: for every file text `s` and block `x`, replacing the first
occurrence of `x` by `x` itself returns `s` byte-identically. -/
theorem replace_snippet_self (s x : List Char) : replace_snippet_in_file s x x = s := by
  induction s with
  | nil =>
    rcases x with _ | ⟨c, cs⟩ <;> rfl
  | cons c rest ih =>
    simp only [replace_snippet_in_file, pyReplaceFirst] at *
    by_cases hp : x.isPrefixOf (c :: rest) = true
    · rw [if_pos hp]
      obtain ⟨t, ht⟩ := (isPrefixOf_iff_exists x (c :: rest)).mp hp
      rw [← ht, List.drop_left]
    · rw [if_neg hp]
      exact congrArg (c :: ·) ih

/-! ## C10: the guarded commit equals the unconditional assignment -/

/-- C10: in `main`'s per-diagnostic loop, the guarded assignment of the
patched text is equivalent to assigning `replace_snippet_in_file`
unconditionally: the untaken branch only keeps a value that already
equals the patch result. -/
theorem commit_step_eq_replace (w s r : List Char) :
    commit_step w s r = replace_snippet_in_file w s r := by
  simp only [commit_step]
  by_cases h : replace_snippet_in_file w s r ≠ w ∨ r = s
  · rw [if_pos h]
  · rw [if_neg h]
    push_neg at h
    exact h.1.symm

/-! ## C7: an out-of-range start line yields an empty result -/

/-- C7: for a start line before line 1 or beyond the last line, block
extraction returns the empty string (the embedding is a total function,
so no out-of-bounds access can occur: the range guard precedes the scan). -/
theorem extract_out_of_range (w : List Char) (start_line : Int)
    (h : start_line < 1 ∨ ((pySplitlines w).length : Int) < start_line) :
    extract_nested_if_snippet w start_line = [] := by
  have hg : start_line - 1 < 0 ∨ ((pySplitlines w).length : Int) ≤ start_line - 1 := by omega
  simp only [extract_nested_if_snippet]
  rw [if_pos hg]

theorem extract_out_of_range_witness :
    ((5 : Int) < 1 ∨ ((pySplitlines ("a\nb".toList)).length : Int) < 5) ∧
    extract_nested_if_snippet ("a\nb".toList) 5 = [] :=
  ⟨by decide, extract_out_of_range ("a\nb".toList) 5 (by decide)⟩

/-! ## C6: failure handling of the rewrite client -/

/-- C6 counterexample: a successful HTTP exchange whose first choice lacks
the `message`/`content` completion field does NOT return the original
block — the subscription `response_json["choices"][0]["message"]["content"]`
sits outside the `try` block, so the `KeyError` (modelled as `none`)
propagates and aborts the run. -/
theorem llm_missing_content_fatal :
    call_llm_for_fix ("orig".toList) (.ok ⟨some [⟨none⟩]⟩) = none := rfl

/-- C6 amended: on a transport failure / non-success status
(`requestError`) or a response whose `choices` field is missing or empty,
the client returns the original block unchanged with an error logged
(recoverable); but a response whose first choice lacks the message
content raises an uncaught exception instead of falling back. -/
theorem llm_failure_fallback (snippet : List Char) :
    call_llm_for_fix snippet .requestError = some ⟨snippet, [], true⟩ ∧
    call_llm_for_fix snippet (.ok ⟨none⟩) = some ⟨snippet, [], true⟩ ∧
    call_llm_for_fix snippet (.ok ⟨some []⟩) = some ⟨snippet, [], true⟩ ∧
    ∀ rest, call_llm_for_fix snippet (.ok ⟨some (⟨none⟩ :: rest)⟩) = none :=
  ⟨rfl, rfl, rfl, fun _ => rfl⟩

/-! ## C1: the no-fence fallback of the rewrite client -/

/-- C1 counterexample: the response content `"hello"` contains no fenced
code region and is nonempty, yet the replacement text is the original
snippet `"ret"`, not the response body — the code never uses the body
verbatim. -/
theorem llm_no_fence_uses_snippet_not_body :
    fencedGoMatch ("hello".toList) = none ∧
    ("hello".toList : List Char) ≠ [] ∧
    call_llm_for_fix ("ret".toList) (.ok ⟨some [⟨some ("hello".toList)⟩]⟩)
      = some ⟨"ret".toList, "hello".toList, false⟩ ∧
    ("ret".toList : List Char) ≠ ("hello".toList : List Char) := by decide

/-- C1 amended: whenever a successful response's content contains no
fenced code region, the client returns the original block unchanged
(the response body is never used verbatim), whether or not the body is
empty; the body only feeds the reasoning text. -/
theorem llm_no_fence_returns_snippet (snippet content : List Char)
    (h : fencedGoMatch content = none) :
    call_llm_for_fix snippet (.ok ⟨some [⟨some content⟩]⟩)
      = some ⟨snippet, pyStrip content, false⟩ := by
  have hrm : removeGoFences content = content := by
    cases content with
    | nil => rfl
    | cons c cs => simp [removeGoFences, removeGoFencesAux, h]
  have hempty : pyStrip ([] : List Char) = [] := rfl
  simp [call_llm_for_fix, extract_code_and_reasoning_from_response, h, hrm, hempty]

theorem llm_no_fence_returns_snippet_witness :
    fencedGoMatch ("hello world".toList) = none ∧
    call_llm_for_fix ("ret x".toList) (.ok ⟨some [⟨some ("hello world".toList)⟩]⟩)
      = some ⟨"ret x".toList, pyStrip ("hello world".toList), false⟩ :=
  ⟨by decide, llm_no_fence_returns_snippet ("ret x".toList) ("hello world".toList) (by decide)⟩

/-! ## C3: unmatched delimiters do not lead to a skip -/

/-- C3 counterexample: the one-line file `"if x {"` opens a brace that
never returns to depth zero (`neverStops` holds and a brace was opened),
yet extraction returns the whole text, the diagnostic is NOT skipped,
and the subsequent patch step can change the working copy. -/
theorem unmatched_not_skipped :
    neverStops (tailLines ("if x \x7b".toList) 1) 0 false = true ∧
    openedIn (tailLines ("if x \x7b".toList) 1) = true ∧
    extract_nested_if_snippet ("if x \x7b".toList) 1 = "if x \x7b".toList ∧
    diagnosticSkipped ("if x \x7b".toList) 1 = false ∧
    commit_step ("if x \x7b".toList) ("if x \x7b".toList) ("fixed".toList)
      ≠ "if x \x7b".toList := by decide

/-- C3 amended: when the scanned lines open a brace but the depth never
returns to `≤ 0` before end of file, extraction returns ALL lines from
the start line to end of file (not an empty "failure" result), and the
diagnostic is skipped only when that text strips to whitespace. -/
theorem unmatched_extraction (w : List Char) (start_line : Int)
    (h1 : 1 ≤ start_line)
    (h2 : start_line - 1 < ((pySplitlines w).length : Int))
    (_hopen : openedIn (tailLines w start_line) = true)
    (hns : neverStops (tailLines w start_line) 0 false = true) :
    extract_nested_if_snippet w start_line
        = List.intercalate ['\n'] (tailLines w start_line) ∧
    diagnosticSkipped w start_line
        = (pyStrip (List.intercalate ['\n'] (tailLines w start_line))).isEmpty := by
  have he := extract_in_range w start_line h1 h2
  rw [extractLoop_all _ _ _ hns] at he
  exact ⟨he, by simp only [diagnosticSkipped, he]⟩

theorem unmatched_extraction_witness :
    (1 ≤ (1 : Int)) ∧
    ((1 : Int) - 1 < ((pySplitlines ("a\nif x \x7b\ny".toList)).length : Int)) ∧
    openedIn (tailLines ("a\nif x \x7b\ny".toList) 1) = true ∧
    neverStops (tailLines ("a\nif x \x7b\ny".toList) 1) 0 false = true ∧
    (extract_nested_if_snippet ("a\nif x \x7b\ny".toList) 1
        = List.intercalate ['\n'] (tailLines ("a\nif x \x7b\ny".toList) 1) ∧
      diagnosticSkipped ("a\nif x \x7b\ny".toList) 1
        = (pyStrip (List.intercalate ['\n']
            (tailLines ("a\nif x \x7b\ny".toList) 1))).isEmpty) :=
  ⟨by decide, by decide, by decide, by decide,
    unmatched_extraction ("a\nif x \x7b\ny".toList) 1
      (by decide) (by decide) (by decide) (by decide)⟩

/-! ## C2: patch application replaces exactly the first occurrence -/

/-- C2: `replace_snippet_in_file` replaces exactly the first textual
occurrence of the old block — it returns
`take i0 ++ new ++ drop (i0 + old.length)` for the least occurrence
index `i0`, leaving all surrounding text (and hence every other
occurrence) byte-identical — and when the old block does not occur at
all it returns the text unchanged (the embedding is total: no exception
is possible). -/
theorem replace_first_occurrence (s old new : List Char) :
    ((∃ i, occursAt s old i) →
      ∃ i0, occursAt s old i0 ∧ (∀ j, j < i0 → ¬ occursAt s old j) ∧
        replace_snippet_in_file s old new
          = s.take i0 ++ new ++ s.drop (i0 + old.length)) ∧
    ((∀ i, ¬ occursAt s old i) → replace_snippet_in_file s old new = s) := by
  induction s with
  | nil =>
    constructor
    · rintro ⟨i, t, ht⟩
      simp only [List.drop_nil] at ht
      obtain ⟨ho, ht0⟩ := List.append_eq_nil.mp ht
      refine ⟨0, ⟨[], by simp [ho]⟩, fun j hj => absurd hj (Nat.not_lt_zero j), ?_⟩
      simp [replace_snippet_in_file, pyReplaceFirst, ho]
    · intro hno
      rcases ho : old with _ | ⟨c, cs⟩
      · exact absurd ⟨[], by simp⟩ (ho ▸ hno 0)
      · simp [replace_snippet_in_file, pyReplaceFirst]
  | cons c rest ih =>
    by_cases hp : old.isPrefixOf (c :: rest) = true
    · obtain ⟨t, ht⟩ := (isPrefixOf_iff_exists old (c :: rest)).mp hp
      have h0 : occursAt (c :: rest) old 0 := ⟨t, by simpa using ht⟩
      constructor
      · intro _
        refine ⟨0, h0, fun j hj => absurd hj (Nat.not_lt_zero j), ?_⟩
        simp only [replace_snippet_in_file, pyReplaceFirst, if_pos hp]
        rw [← ht, List.drop_left]
        simp
      · intro hno
        exact absurd h0 (hno 0)
    · have h0 : ¬ occursAt (c :: rest) old 0 := by
        rintro ⟨t, ht⟩
        exact hp ((isPrefixOf_iff_exists old (c :: rest)).mpr ⟨t, by simpa using ht⟩)
      have hshift : ∀ j, occursAt (c :: rest) old (j + 1) ↔ occursAt rest old j := by
        intro j
        simp [occursAt, List.drop_succ_cons]
      constructor
      · rintro ⟨i, hi⟩
        rcases i with _ | i'
        · exact absurd hi h0
        · obtain ⟨i0, hi0, hmin, heq⟩ := ih.1 ⟨i', (hshift i').mp hi⟩
          refine ⟨i0 + 1, (hshift i0).mpr hi0, ?_, ?_⟩
          · intro j hj
            rcases j with _ | j'
            · exact h0
            · exact fun hc => hmin j' (Nat.lt_of_succ_lt_succ hj) ((hshift j').mp hc)
          · simp only [replace_snippet_in_file, pyReplaceFirst, if_neg hp] at *
            rw [heq]
            simp only [List.take_succ_cons, List.cons_append]
            have : i0 + 1 + old.length = (i0 + old.length) + 1 := by omega
            rw [this, List.drop_succ_cons]
      · intro hno
        have : ∀ i, ¬ occursAt rest old i := fun i hc =>
          hno (i + 1) ((hshift i).mpr hc)
        simp only [replace_snippet_in_file, pyReplaceFirst, if_neg hp] at *
        rw [ih.2 this]

theorem replace_first_occurrence_witness :
    ((∃ i, occursAt ("xabcabc".toList) ("abc".toList) i) ∧
      ∃ i0, occursAt ("xabcabc".toList) ("abc".toList) i0 ∧
        (∀ j, j < i0 → ¬ occursAt ("xabcabc".toList) ("abc".toList) j) ∧
        replace_snippet_in_file ("xabcabc".toList) ("abc".toList) ("Z".toList)
          = ("xabcabc".toList).take i0 ++ ("Z".toList)
              ++ ("xabcabc".toList).drop (i0 + ("abc".toList).length)) ∧
    ((∀ i, ¬ occursAt ("ab".toList) ("zzz".toList) i) ∧
      replace_snippet_in_file ("ab".toList) ("zzz".toList) ("Z".toList) = "ab".toList) := by
  constructor
  · have hex : ∃ i, occursAt ("xabcabc".toList) ("abc".toList) i :=
      ⟨1, "abc".toList, by decide⟩
    exact ⟨hex, (replace_first_occurrence ("xabcabc".toList) ("abc".toList) ("Z".toList)).1 hex⟩
  · have hno : ∀ i, ¬ occursAt ("ab".toList) ("zzz".toList) i := by
      intro i ⟨t, ht⟩
      have : ("zzz".toList ++ t).length = (("ab".toList).drop i).length := by rw [ht]
      simp [List.length_append, List.length_drop] at this
      omega
    exact ⟨hno, (replace_first_occurrence ("ab".toList) ("zzz".toList) ("Z".toList)).2 hno⟩

/-! ## C5: extraction of a balanced nested block nets to zero -/

/-- The stop condition of the extraction scan at index `k` of the scanned
lines, generalized over the initial `brace_count` `d` and
`found_open_brace` `f` (specification vocabulary). -/
def condFrom (d : Int) (f : Bool) (ls : List (List Char)) (k : Nat) : Prop :=
  (f = true ∨ openedIn (ls.take (k + 1)) = true) ∧ d + depthSum (ls.take (k + 1)) ≤ 0

theorem condFrom_zero (d : Int) (f : Bool) (l : List Char) (rest : List (List Char)) :
    condFrom d f (l :: rest) 0
      ↔ ((f || decide (0 < openCount l)) = true ∧ d + braceDelta l ≤ 0) := by
  simp [condFrom, openedIn, depthSum, Bool.or_eq_true, decide_eq_true_iff]

theorem condFrom_succ (d : Int) (f : Bool) (l : List Char) (rest : List (List Char)) (k : Nat) :
    condFrom d f (l :: rest) (k + 1)
      ↔ condFrom (d + braceDelta l) (f || decide (0 < openCount l)) rest k := by
  simp [condFrom, openedIn, depthSum, List.take_succ_cons, List.any_cons,
    Bool.or_eq_true, decide_eq_true_iff, or_assoc, add_assoc]

theorem extractLoop_stop (ls : List (List Char)) :
    ∀ d f, (∃ k, k < ls.length ∧ condFrom d f ls k) →
      ∃ k0, k0 < ls.length ∧ condFrom d f ls k0 ∧
        (∀ j, j < k0 → ¬ condFrom d f ls j) ∧
        extractLoop ls d f = ls.take (k0 + 1) := by
  induction ls with
  | nil =>
    rintro d f ⟨k, hk, -⟩
    exact absurd hk (by simp)
  | cons l rest ih =>
    rintro d f ⟨k, hk, hc⟩
    by_cases hstop : ((f || decide (0 < openCount l)) && decide (d + braceDelta l ≤ 0)) = true
    · have h0 : condFrom d f (l :: rest) 0 := by
        rw [condFrom_zero]
        simpa [Bool.and_eq_true, decide_eq_true_iff] using hstop
      refine ⟨0, by simp, h0, fun j hj => absurd hj (Nat.not_lt_zero j), ?_⟩
      simp only [extractLoop, hstop, if_true]
      rfl
    · have hnot0 : ¬ condFrom d f (l :: rest) 0 := by
        rw [condFrom_zero]
        intro hc0
        exact hstop (by simp [Bool.and_eq_true, decide_eq_true_iff, hc0.1, hc0.2])
      rcases k with _ | k'
      · exact absurd hc hnot0
      · have hc' := (condFrom_succ d f l rest k').mp hc
        have hk' : k' < rest.length := by
          simpa using Nat.lt_of_succ_lt_succ hk
        obtain ⟨k0, hk0len, hk0c, hk0min, hk0eq⟩ :=
          ih (d + braceDelta l) (f || decide (0 < openCount l)) ⟨k', hk', hc'⟩
        refine ⟨k0 + 1, by simpa using Nat.succ_lt_succ hk0len,
          (condFrom_succ d f l rest k0).mpr hk0c, ?_, ?_⟩
        · intro j hj
          rcases j with _ | j'
          · exact hnot0
          · intro hcj
            exact hk0min j' (Nat.lt_of_succ_lt_succ hj)
              ((condFrom_succ d f l rest j').mp hcj)
        · simp only [extractLoop]
          rw [if_neg (by simpa using hstop)]
          rw [List.take_succ_cons]
          exact congrArg (l :: ·) hk0eq

/-- C5: started at an in-range line whose own delimiters balance
(`depthSum` of the first scanned line is 0), and followed by a nested
block — some later index `j` where the cumulative delta returns to
exactly 0 after a brace was opened, with all intermediate cumulative
deltas nonnegative — the scan stops at the first index (at or after the
first open brace) where the cumulative depth returns to `≤ 0`, includes
that line in the block, and the extracted block's own open-minus-close
count nets to exactly zero. -/
theorem extract_balanced_block (w : List Char) (start_line : Int)
    (h1 : 1 ≤ start_line)
    (h2 : start_line - 1 < ((pySplitlines w).length : Int))
    (_hbal : depthSum ((tailLines w start_line).take 1) = 0)
    (hblock : ∃ j, 1 ≤ j ∧ j < (tailLines w start_line).length ∧
        depthSum ((tailLines w start_line).take (j + 1)) = 0 ∧
        openedIn ((tailLines w start_line).take (j + 1)) = true ∧
        ∀ m, m ≤ j + 1 → 0 ≤ depthSum ((tailLines w start_line).take m)) :
    ∃ k, k < (tailLines w start_line).length ∧
      openedIn ((tailLines w start_line).take (k + 1)) = true ∧
      depthSum ((tailLines w start_line).take (k + 1)) ≤ 0 ∧
      (∀ j, j < k → ¬ (openedIn ((tailLines w start_line).take (j + 1)) = true ∧
          depthSum ((tailLines w start_line).take (j + 1)) ≤ 0)) ∧
      depthSum ((tailLines w start_line).take (k + 1)) = 0 ∧
      extract_nested_if_snippet w start_line
        = List.intercalate ['\n'] ((tailLines w start_line).take (k + 1)) := by
  obtain ⟨j, hj1, hjlen, hjzero, hjopen, hjpre⟩ := hblock
  have hbare : ∀ k, condFrom 0 false (tailLines w start_line) k ↔
      (openedIn ((tailLines w start_line).take (k + 1)) = true ∧
        depthSum ((tailLines w start_line).take (k + 1)) ≤ 0) := by
    intro k
    simp [condFrom]
  have hcond : ∃ k, k < (tailLines w start_line).length ∧
      condFrom 0 false (tailLines w start_line) k :=
    ⟨j, hjlen, (hbare j).mpr ⟨hjopen, by rw [hjzero]⟩⟩
  obtain ⟨k0, hk0len, hk0c, hk0min, hk0eq⟩ :=
    extractLoop_stop (tailLines w start_line) 0 false hcond
  have hk0le : k0 ≤ j := by
    by_contra hlt
    exact hk0min j (by omega) ((hbare j).mpr ⟨hjopen, by rw [hjzero]⟩)
  have hnet : depthSum ((tailLines w start_line).take (k0 + 1)) = 0 := by
    have hge := hjpre (k0 + 1) (by omega)
    have hle := ((hbare k0).mp hk0c).2
    omega
  refine ⟨k0, hk0len, ((hbare k0).mp hk0c).1, ((hbare k0).mp hk0c).2, ?_, hnet, ?_⟩
  · intro j' hj' hcj'
    exact hk0min j' hj' ((hbare j').mpr hcj')
  · rw [extract_in_range w start_line h1 h2, hk0eq]

theorem extract_balanced_block_witness :
    (depthSum ((tailLines ("x := 1\nif a \x7b\nb()\n\x7d\nrest".toList) 1).take 1) = 0) ∧
    ∃ k, k < (tailLines ("x := 1\nif a \x7b\nb()\n\x7d\nrest".toList) 1).length ∧
      openedIn ((tailLines ("x := 1\nif a \x7b\nb()\n\x7d\nrest".toList) 1).take (k + 1)) = true ∧
      depthSum ((tailLines ("x := 1\nif a \x7b\nb()\n\x7d\nrest".toList) 1).take (k + 1)) ≤ 0 ∧
      (∀ j, j < k →
        ¬ (openedIn ((tailLines ("x := 1\nif a \x7b\nb()\n\x7d\nrest".toList) 1).take (j + 1)) = true ∧
          depthSum ((tailLines ("x := 1\nif a \x7b\nb()\n\x7d\nrest".toList) 1).take (j + 1)) ≤ 0)) ∧
      depthSum ((tailLines ("x := 1\nif a \x7b\nb()\n\x7d\nrest".toList) 1).take (k + 1)) = 0 ∧
      extract_nested_if_snippet ("x := 1\nif a \x7b\nb()\n\x7d\nrest".toList) 1
        = List.intercalate ['\n']
            ((tailLines ("x := 1\nif a \x7b\nb()\n\x7d\nrest".toList) 1).take (k + 1)) :=
  ⟨by decide,
    extract_balanced_block ("x := 1\nif a \x7b\nb()\n\x7d\nrest".toList) 1
      (by decide) (by decide) (by decide)
      ⟨3, by decide, by decide, by decide, by decide, by decide⟩⟩

/-! ## C8 / C4: the diagnostic parser -/

theorem takeWhile_append_all (p : Char → Bool) (a b : List Char)
    (ha : ∀ c ∈ a, p c = true) :
    (a ++ b).takeWhile p = a ++ b.takeWhile p := by
  induction a with
  | nil => simp
  | cons x xs ih =>
    have hx := ha x (by simp)
    simp only [List.cons_append, List.takeWhile_cons, hx, if_true]
    exact congrArg (x :: ·) (ih (fun c hc => ha c (by simp [hc])))

theorem dropWhile_append_all (p : Char → Bool) (a b : List Char)
    (ha : ∀ c ∈ a, p c = true) :
    (a ++ b).dropWhile p = b.dropWhile p := by
  induction a with
  | nil => simp
  | cons x xs ih =>
    have hx := ha x (by simp)
    simp only [List.cons_append, List.dropWhile_cons, hx, if_true]
    exact ih (fun c hc => ha c (by simp [hc]))

theorem takeWhile_eq_self_of_all (p : Char → Bool) (a : List Char)
    (ha : ∀ c ∈ a, p c = true) : a.takeWhile p = a := by
  have := takeWhile_append_all p a [] ha
  simpa using this

theorem dropWhile_eq_nil_of_all (p : Char → Bool) (a : List Char)
    (ha : ∀ c ∈ a, p c = true) : a.dropWhile p = [] := by
  have := dropWhile_append_all p a [] ha
  simpa using this

theorem msgMatch_sound (s m : List Char) (h : msgMatch s = some m) :
    m = s.takeWhile notNl ∧ m ≠ [] ∧ (∀ c ∈ m, c ≠ '\n') ∧
      s = m ++ s.dropWhile notNl ∧
      (s.dropWhile notNl = [] ∨ s.dropWhile notNl = ['\n']) := by
  simp only [msgMatch] at h
  by_cases h1 : s.takeWhile notNl = []
  · rw [if_pos h1] at h
    exact absurd h (by simp)
  · rw [if_neg h1] at h
    by_cases h2 : s.dropWhile notNl = [] ∨ s.dropWhile notNl = ['\n']
    · rw [if_pos h2] at h
      injection h with h3
      refine ⟨h3.symm, by rw [← h3]; exact h1, ?_, ?_, h2⟩
      · intro c hc
        have hmem : c ∈ s.takeWhile notNl := by rw [h3]; exact hc
        have := List.mem_takeWhile_imp hmem
        simpa [notNl] using this
      · rw [← h3]
        exact (List.takeWhile_append_dropWhile ..).symm
    · rw [if_neg h2] at h
      exact absurd h (by simp)

theorem msgMatch_complete (s : List Char) (hne : s ≠ []) (hnl : ∀ c ∈ s, c ≠ '\n') :
    msgMatch s = some s := by
  have hall : ∀ c ∈ s, notNl c = true := by
    intro c hc
    simpa [notNl] using hnl c hc
  have ht := takeWhile_eq_self_of_all notNl s hall
  have hd := dropWhile_eq_nil_of_all notNl s hall
  simp only [msgMatch, ht, hd]
  rw [if_neg hne]
  simp

theorem wsBacktrack_sound : ∀ (rev : List Char), ∀ (t m : List Char),
    (∀ c ∈ rev, isPyWs c = true) → wsBacktrack rev t = some m →
    ∃ w0 t0, rev.reverse ++ t = w0 ++ t0 ∧ w0 ≠ [] ∧ (∀ c ∈ w0, isPyWs c = true) ∧
      msgMatch t0 = some m := by
  intro rev
  induction rev with
  | nil =>
    intro t m _ h
    exact absurd h (by simp [wsBacktrack])
  | cons c wRev ih =>
    intro t m hws h
    cases hm : msgMatch t with
    | some mPrime =>
      simp only [wsBacktrack, hm] at h
      obtain rfl : mPrime = m := by simpa using h
      refine ⟨(c :: wRev).reverse, t, rfl, by simp, ?_, hm⟩
      intro x hx
      have hx' : x ∈ wRev ∨ x = c := by simpa using hx
      exact hws x (by simpa using Or.symm hx')
    | none =>
      simp only [wsBacktrack, hm] at h
      obtain ⟨w0, t0, heq, hne, hall, hmsg⟩ :=
        ih (c :: t) m (fun x hx => hws x (by simp [hx])) h
      refine ⟨w0, t0, ?_, hne, hall, hmsg⟩
      rw [← heq]
      simp

theorem wsBacktrack_some_of_msg (rev t : List Char) (hrev : rev ≠ [])
    (hne : t ≠ []) (hnl : ∀ c ∈ t, c ≠ '\n') :
    wsBacktrack rev t = some t := by
  cases rev with
  | nil => exact absurd rfl hrev
  | cons c wRev => simp [wsBacktrack, msgMatch_complete t hne hnl]

theorem wsBacktrack_empty_t (c : Char) (wRev : List Char) (hwne : wRev ≠ [])
    (hc : c ≠ '\n') : wsBacktrack (c :: wRev) [] = some [c] := by
  have h0 : msgMatch [] = none := rfl
  simp only [wsBacktrack, h0]
  exact wsBacktrack_some_of_msg wRev [c] hwne (by simp) (by simp [hc])

theorem tailMatch_sound (r m : List Char) (h : tailMatch r = some m) :
    ∃ w0 t0, r = w0 ++ t0 ∧ w0 ≠ [] ∧ (∀ c ∈ w0, isPyWs c = true) ∧
      msgMatch t0 = some m := by
  simp only [tailMatch] at h
  have hws : ∀ c ∈ (r.takeWhile isPyWs).reverse, isPyWs c = true := by
    intro c hc
    exact List.mem_takeWhile_imp (by simpa using hc)
  obtain ⟨w0, t0, heq, hne, hall, hmsg⟩ := wsBacktrack_sound _ _ _ hws h
  refine ⟨w0, t0, ?_, hne, hall, hmsg⟩
  rw [← heq, List.reverse_reverse]
  exact (List.takeWhile_append_dropWhile ..).symm

theorem tailMatch_complete (w2 m : List Char) (hw2 : w2 ≠ [])
    (hwall : ∀ c ∈ w2, isPyWs c = true) (hm : m ≠ [])
    (hnl : ∀ c ∈ w2 ++ m, c ≠ '\n') :
    ∃ msg, tailMatch (w2 ++ m) = some msg := by
  simp only [tailMatch]
  rw [takeWhile_append_all _ _ _ hwall, dropWhile_append_all _ _ _ hwall]
  cases hd : m.dropWhile isPyWs with
  | nil =>
    have htm : m.takeWhile isPyWs = m := by
      have hx := List.takeWhile_append_dropWhile (p := isPyWs) (l := m)
      rw [hd] at hx
      simpa using hx
    rw [htm]
    cases hmr : m.reverse with
    | nil => exact absurd (by simpa using hmr) hm
    | cons c cs =>
      rw [List.reverse_append, hmr]
      have hcm : c ∈ m := by
        have : c ∈ m.reverse := by rw [hmr]; simp
        simpa using this
      refine ⟨[c], ?_⟩
      show wsBacktrack (c :: (cs ++ w2.reverse)) [] = some [c]
      apply wsBacktrack_empty_t
      · intro hnil
        obtain ⟨-, hw2r⟩ := List.append_eq_nil.mp hnil
        exact hw2 (by simpa using hw2r)
      · exact hnl c (List.mem_append_right _ hcm)
  | cons x xs =>
    refine ⟨x :: xs, ?_⟩
    apply wsBacktrack_some_of_msg
    · simp [hw2]
    · simp
    · intro c hc
      have hcm : c ∈ m := by
        have hsub : c ∈ m.dropWhile isPyWs := by rw [hd]; exact hc
        exact (List.dropWhile_sublist _).subset hsub
      exact hnl c (List.mem_append_right _ hcm)

theorem ws_not_digit (c : Char) (h : isPyWs c = true) : isDigitCh c = false := by
  simp only [isPyWs, Bool.or_eq_true, beq_iff_eq] at h
  rcases h with ((((h | h) | h) | h) | h) | h <;> subst h <;> decide

theorem restMatch_sound (r : List Char) (n : Nat) (m : List Char)
    (h : restMatch r = some (n, m)) :
    ∃ d1 d2 w1 w2 q,
      r = ':' :: (d1 ++ ':' :: (d2 ++ (w1 ++ (nestifStr ++ (w2 ++ (m ++ q)))))) ∧
      d1 ≠ [] ∧ (∀ c ∈ d1, isDigitCh c = true) ∧
      d2 ≠ [] ∧ (∀ c ∈ d2, isDigitCh c = true) ∧
      w1 ≠ [] ∧ (∀ c ∈ w1, isPyWs c = true) ∧
      w2 ≠ [] ∧ (∀ c ∈ w2, isPyWs c = true) ∧
      m ≠ [] ∧ (∀ c ∈ m, c ≠ '\n') ∧
      (q = [] ∨ q = ['\n']) ∧
      n = natOfDigits d1 := by
  unfold restMatch at h
  split at h
  next r1 =>
    dsimp only at h
    split at h
    next hd1 => exact absurd h (by simp)
    next hd1 =>
      split at h
      next r3 heq2 =>
        split at h
        next hd2 => exact absurd h (by simp)
        next hd2 =>
          split at h
          next hw1 => exact absurd h (by simp)
          next hw1 =>
            split at h
            next hpre =>
              cases htm : tailMatch (((r3.dropWhile isDigitCh).dropWhile isPyWs).drop 6) with
              | none => rw [htm] at h; exact absurd h (by simp)
              | some msg =>
                rw [htm] at h
                obtain ⟨hn, hmeq⟩ :
                    natOfDigits (r1.takeWhile isDigitCh) = n ∧ msg = m := by
                  simpa using h
                obtain ⟨t5, ht5⟩ := (isPrefixOf_iff_exists _ _).mp hpre
                have hlen : nestifStr.length = 6 := rfl
                have hdrop : ((r3.dropWhile isDigitCh).dropWhile isPyWs).drop 6 = t5 := by
                  rw [← ht5, ← hlen, List.drop_left]
                rw [hdrop] at htm
                obtain ⟨w2, t0, ht5eq, hw2ne, hw2all, hmsgm⟩ := tailMatch_sound t5 msg htm
                obtain ⟨hmt, hmne, hmnl, ht0, hq⟩ := msgMatch_sound t0 msg hmsgm
                refine ⟨r1.takeWhile isDigitCh, r3.takeWhile isDigitCh,
                  (r3.dropWhile isDigitCh).takeWhile isPyWs, w2, t0.dropWhile notNl,
                  ?_, hd1, fun c hc => List.mem_takeWhile_imp hc,
                  hd2, fun c hc => List.mem_takeWhile_imp hc,
                  hw1, fun c hc => List.mem_takeWhile_imp hc,
                  hw2ne, hw2all, hmeq ▸ hmne, hmeq ▸ hmnl, hq, hn.symm⟩
                have e1 : r1 = r1.takeWhile isDigitCh ++ (':' :: r3) := by
                  rw [← heq2]
                  exact (List.takeWhile_append_dropWhile ..).symm
                have e2 : r3 = r3.takeWhile isDigitCh ++ r3.dropWhile isDigitCh :=
                  (List.takeWhile_append_dropWhile ..).symm
                have e3 : r3.dropWhile isDigitCh
                    = (r3.dropWhile isDigitCh).takeWhile isPyWs
                      ++ (r3.dropWhile isDigitCh).dropWhile isPyWs :=
                  (List.takeWhile_append_dropWhile ..).symm
                have e4 : (r3.dropWhile isDigitCh).dropWhile isPyWs
                    = nestifStr ++ (w2 ++ t0) := by
                  rw [← ht5, ht5eq]
                have e5 : t0 = m ++ t0.dropWhile notNl := by
                  rw [← hmeq]
                  exact ht0
                refine congrArg (':' :: ·) ?_
                calc r1 = r1.takeWhile isDigitCh ++ (':' :: r3) := e1
                  _ = r1.takeWhile isDigitCh
                        ++ (':' :: (r3.takeWhile isDigitCh
                          ++ ((r3.dropWhile isDigitCh).takeWhile isPyWs
                            ++ (nestifStr ++ (w2 ++ (m ++ t0.dropWhile notNl)))))) := by
                      rw [← e5, ← e4, ← e3, ← e2]
            next hpre => exact absurd h (by simp)
      next hne => exact absurd h (by simp)
  next hne => exact absurd h (by simp)

theorem restMatch_complete (d1 d2 w1 w2 m : List Char)
    (hd1 : d1 ≠ []) (hd1all : ∀ c ∈ d1, isDigitCh c = true)
    (hd2 : d2 ≠ []) (hd2all : ∀ c ∈ d2, isDigitCh c = true)
    (hw1 : w1 ≠ []) (hw1all : ∀ c ∈ w1, isPyWs c = true)
    (hw2 : w2 ≠ []) (hw2all : ∀ c ∈ w2, isPyWs c = true)
    (hm : m ≠ []) (hnl : ∀ c ∈ w2 ++ m, c ≠ '\n') :
    ∃ res, restMatch
        (':' :: (d1 ++ ':' :: (d2 ++ (w1 ++ (nestifStr ++ (w2 ++ m)))))) = some res := by
  have hcolon : isDigitCh ':' = false := by decide
  have hnws : isPyWs 'n' = false := by decide
  obtain ⟨msg, hmsg⟩ := tailMatch_complete w2 m hw2 hw2all hm hnl
  have htk1 : (d1 ++ ':' :: (d2 ++ (w1 ++ (nestifStr ++ (w2 ++ m))))).takeWhile isDigitCh
      = d1 := by
    rw [takeWhile_append_all _ _ _ hd1all]
    simp [List.takeWhile_cons, hcolon]
  have hdr1 : (d1 ++ ':' :: (d2 ++ (w1 ++ (nestifStr ++ (w2 ++ m))))).dropWhile isDigitCh
      = ':' :: (d2 ++ (w1 ++ (nestifStr ++ (w2 ++ m)))) := by
    rw [dropWhile_append_all _ _ _ hd1all]
    simp [List.dropWhile_cons, hcolon]
  obtain ⟨x1, w1tail, hw1e⟩ : ∃ x1 w1tail, w1 = x1 :: w1tail := by
    cases w1 with
    | nil => exact absurd rfl hw1
    | cons a b => exact ⟨a, b, rfl⟩
  have hx1d : isDigitCh x1 = false :=
    ws_not_digit x1 (hw1all x1 (by simp [hw1e]))
  have htk2 : (d2 ++ (w1 ++ (nestifStr ++ (w2 ++ m)))).takeWhile isDigitCh = d2 := by
    rw [takeWhile_append_all _ _ _ hd2all, hw1e]
    simp [List.takeWhile_cons, hx1d]
  have hdr2 : (d2 ++ (w1 ++ (nestifStr ++ (w2 ++ m)))).dropWhile isDigitCh
      = w1 ++ (nestifStr ++ (w2 ++ m)) := by
    rw [dropWhile_append_all _ _ _ hd2all, hw1e]
    simp [List.dropWhile_cons, hx1d]
  have hXn : nestifStr ++ (w2 ++ m) = 'n' :: ("estif".toList ++ (w2 ++ m)) := rfl
  have htk3 : (w1 ++ (nestifStr ++ (w2 ++ m))).takeWhile isPyWs = w1 := by
    rw [takeWhile_append_all _ _ _ hw1all, hXn]
    simp [List.takeWhile_cons, hnws]
  have hdr3 : (w1 ++ (nestifStr ++ (w2 ++ m))).dropWhile isPyWs
      = nestifStr ++ (w2 ++ m) := by
    rw [dropWhile_append_all _ _ _ hw1all, hXn]
    simp [List.dropWhile_cons, hnws]
  have hpre : nestifStr.isPrefixOf (nestifStr ++ (w2 ++ m)) = true :=
    (isPrefixOf_iff_exists _ _).mpr ⟨w2 ++ m, rfl⟩
  have hdrop6 : (nestifStr ++ (w2 ++ m)).drop 6 = w2 ++ m := by
    rw [show (6 : Nat) = nestifStr.length from rfl, List.drop_left]
  refine ⟨(natOfDigits d1, msg), ?_⟩
  unfold restMatch
  split
  next r1 hr1 =>
    injection hr1 with _ hbig
    subst hbig
    dsimp only
    rw [htk1, if_neg hd1, hdr1]
    split
    next r3 hr3 =>
      injection hr3 with _ h3
      subst h3
      rw [htk2, if_neg hd2, hdr2, htk3, if_neg hw1, hdr3, if_pos hpre, hdrop6, hmsg]
      rfl
    next hr3bad => exact absurd rfl (hr3bad _)
  next hbad => exact absurd rfl (hbad _)

theorem scanFile_sound : ∀ (r fAcc f : List Char) (n : Nat) (m : List Char),
    (∀ c ∈ fAcc, c ≠ '\n') → scanFile fAcc r = some (f, n, m) →
    ∃ fNew rest, r = fNew ++ rest ∧ f = fAcc ++ fNew ∧ fNew ≠ [] ∧
      (∀ c ∈ fNew, c ≠ '\n') ∧ restMatch rest = some (n, m) := by
  intro r
  induction r with
  | nil =>
    intro fAcc f n m _ h
    exact absurd h (by simp [scanFile])
  | cons c rest ih =>
    intro fAcc f n m hAcc h
    simp only [scanFile] at h
    by_cases hc : c = '\n'
    · rw [if_pos hc] at h
      exact absurd h (by simp)
    · rw [if_neg hc] at h
      cases hr : restMatch rest with
      | some nm =>
        obtain ⟨nn, mm⟩ := nm
        rw [hr] at h
        obtain ⟨hf, hn, hm⟩ : fAcc ++ [c] = f ∧ nn = n ∧ mm = m := by simpa using h
        refine ⟨[c], rest, rfl, hf.symm, by simp, ?_, by rw [hr, hn, hm]⟩
        intro x hx
        have : x = c := by simpa using hx
        subst this
        exact hc
      | none =>
        rw [hr] at h
        obtain ⟨fNew, rest2, he, hfe, hne, hnl2, hrm⟩ :=
          ih (fAcc ++ [c]) f n m
            (by
              intro x hx
              rcases List.mem_append.mp hx with h' | h'
              · exact hAcc x h'
              · have : x = c := by simpa using h'
                subst this
                exact hc) h
        refine ⟨c :: fNew, rest2, ?_, ?_, by simp, ?_, hrm⟩
        · rw [List.cons_append]
          exact congrArg (c :: ·) he
        · rw [hfe, List.append_assoc]
          rfl
        · intro x hx
          rcases List.mem_cons.mp hx with h' | h'
          · subst h'; exact hc
          · exact hnl2 x h'

theorem scanFile_cons (fAcc : List Char) (c : Char) (rest : List Char) :
    scanFile fAcc (c :: rest) =
      if c = '\n' then none
      else
        match restMatch rest with
        | some (n, m) => some (fAcc ++ [c], n, m)
        | none => scanFile (fAcc ++ [c]) rest := rfl

theorem scanFile_complete : ∀ (f : List Char), f ≠ [] → (∀ c ∈ f, c ≠ '\n') →
    ∀ (rest fAcc : List Char), (restMatch rest).isSome = true →
    (scanFile fAcc (f ++ rest)).isSome = true := by
  intro f
  induction f with
  | nil => intro h; exact absurd rfl h
  | cons c f2 ih =>
    intro _ hnl rest fAcc hsome
    rw [List.cons_append, scanFile_cons, if_neg (hnl c (by simp))]
    cases hr : restMatch (f2 ++ rest) with
    | some nm =>
      obtain ⟨nn, mm⟩ := nm
      simp
    | none =>
      rcases hf2 : f2 with _ | ⟨d, f3⟩
      · subst hf2
        rw [List.nil_append] at hr
        rw [hr] at hsome
        exact absurd hsome (by simp)
      · subst hf2
        exact ih (by simp) (fun x hx => hnl x (by simp [hx])) rest (fAcc ++ [c]) hsome

/-- C8: the diagnostic parser is exactly the grammar
`<file>:<line>:<col> nestif <message>` on newline-free linter output
lines: a line admitting a `nestif` parse produces a diagnostic, and every
produced diagnostic's file, line and message groups are exact substrings
of the line arranged per the grammar (with the line number the decimal
value of its digit group); a line with no `nestif` parse — malformed, or
matching only with a different rule — produces no diagnostic. -/
theorem parse_grammar_exact (line : List Char) (hnl : ∀ c ∈ line, c ≠ '\n') :
    ((∃ f n m, NestifLine line f n m) → (matchNestif line).isSome = true) ∧
    (∀ f n m, matchNestif line = some (f, n, m) → NestifLine line f n m) := by
  constructor
  · rintro ⟨f, n, m, d1, d2, w1, w2, heq, hf, hfnl, hd1, hd1all, hd2, hd2all,
      hw1, hw1all, hw2, hw2all, hm, hmnl, hn⟩
    have hnlw2m : ∀ c ∈ w2 ++ m, c ≠ '\n' := by
      intro c hc
      apply hnl
      have hc' := hc
      simp only [List.mem_append] at hc'
      rw [heq]
      simp only [List.mem_append, List.mem_cons]
      tauto
    obtain ⟨res, hres⟩ := restMatch_complete d1 d2 w1 w2 m hd1 hd1all hd2 hd2all
      hw1 hw1all hw2 hw2all hm hnlw2m
    unfold matchNestif
    rw [heq]
    exact scanFile_complete f hf hfnl _ [] (by rw [hres]; rfl)
  · intro f n m h
    unfold matchNestif at h
    obtain ⟨fNew, rest, hre, hfe, hfneq, hfnl2, hrm⟩ :=
      scanFile_sound line [] f n m (by simp) h
    have hfe' : f = fNew := by simpa using hfe
    obtain ⟨d1, d2, w1, w2, q, hreq, hd1, hd1all, hd2, hd2all, hw1, hw1all,
      hw2, hw2all, hm, hmnl, hq, hn⟩ := restMatch_sound rest n m hrm
    have hq0 : q = [] := by
      rcases hq with h' | h'
      · exact h'
      · exfalso
        apply hnl '\n' _ rfl
        rw [hre, hreq]
        subst h'
        simp
    subst hq0
    rw [List.append_nil] at hreq
    refine ⟨d1, d2, w1, w2, ?_, hfe' ▸ hfneq, hfe' ▸ hfnl2, hd1, hd1all,
      hd2, hd2all, hw1, hw1all, hw2, hw2all, hm, hmnl, hn⟩
    rw [hre, hreq, hfe']

theorem parse_grammar_exact_witness :
    (∀ c ∈ ("a.go:3:2 nestif has nested".toList), c ≠ '\n') ∧
    NestifLine ("a.go:3:2 nestif has nested".toList) ("a.go".toList) 3
      ("has nested".toList) :=
  ⟨by decide,
    (parse_grammar_exact ("a.go:3:2 nestif has nested".toList) (by decide)).2
      ("a.go".toList) 3 ("has nested".toList) (by decide)⟩

/-! ## C4: line numbers of produced diagnostics -/

/-- C4 counterexample: the line `"f:0:0 nestif m"` parses — `\d+` accepts
`"0"` and `int` converts it — so the parser produces a diagnostic whose
line number is 0, which is not a positive (≥ 1) integer. -/
theorem parse_line_zero :
    parse_nestif_errors [("f:0:0 nestif m".toList)]
        = [(("f".toList), 0, ("m".toList))] ∧
    ¬ (∀ d ∈ parse_nestif_errors [("f:0:0 nestif m".toList)], 1 ≤ d.2.1) := by
  decide

/-- C4 amended: every diagnostic the parser produces has a line number
equal to the decimal value of a nonempty digit group — a nonnegative
integer that may be 0; a line whose line/column group is not a nonempty
digit string produces no diagnostic. -/
theorem parse_line_group_digits (line f : List Char) (n : Nat) (m : List Char)
    (h : matchNestif line = some (f, n, m)) :
    ∃ d1, d1 ≠ [] ∧ (∀ c ∈ d1, isDigitCh c = true) ∧ n = natOfDigits d1 := by
  unfold matchNestif at h
  obtain ⟨fNew, rest, -, -, -, -, hrm⟩ := scanFile_sound line [] f n m (by simp) h
  obtain ⟨d1, d2, w1, w2, q, -, hd1, hd1all, -, -, -, -, -, -, -, -, -, hn⟩ :=
    restMatch_sound rest n m hrm
  exact ⟨d1, hd1, hd1all, hn⟩

theorem parse_line_group_digits_witness :
    ∃ d1, d1 ≠ [] ∧ (∀ c ∈ d1, isDigitCh c = true) ∧ 12 = natOfDigits d1 :=
  parse_line_group_digits ("f.go:12:3 nestif x".toList) ("f.go".toList) 12
    ("x".toList) (by decide)
